import Mathlib

/-
Verification of the Automatic Schema Mapping Engine
(src/yoix/utils/automap.py) against its natural-language specification.

Modelling conventions:
* Python strings are lists of characters (`Str`); the corpus the engine
  handles is ASCII, so the ASCII fragments of `str.lower`, `str.isdigit`
  and the regex classes are used.
* Python floats are modelled as exact rationals.  Every claim settled here
  is insensitive to double rounding: the sniffer thresholds `int(n*0.2)`
  and `int(n*0.6)` agree with the exact floors `n/5` and `3*n/5` for every
  reachable sample size n ≤ 50 (checked against IEEE-754 rounding of the
  products), and the concrete scores appearing in counterexamples and
  witnesses are integers built from exact similarity values.
* Code that can raise (float() behind the isdigit guard in sniff_type)
  returns an Option, with `none` for a propagated exception.
* The merged alias table is built in the source by iterating over the set
  union `set(ALIASES) | set(learned_aliases)`; a Python set's iteration
  order is implementation defined, so that enumeration is passed to
  `auto_map_columns` as an explicit parameter `ord`.
-/

namespace automap

abbrev Str := List Char

def chars (s : String) : Str := s.data

/-- ASCII part of Python's `str.strip()` / regex `\s` whitespace class. -/
def isPySpace (c : Char) : Bool :=
  c = ' ' || c = '\t' || c = '\n' || c = '\r' || c = '\x0b' || c = '\x0c'

/-- The separator class `[_\-.\/]` of automap.norm. -/
def isSepChar (c : Char) : Bool := c = '_' || c = '-' || c = '.' || c = '/'

def isLowerA (c : Char) : Bool := decide (97 ≤ c.toNat ∧ c.toNat ≤ 122)
def isUpperA (c : Char) : Bool := decide (65 ≤ c.toNat ∧ c.toNat ≤ 90)
def isDigitA (c : Char) : Bool := decide (48 ≤ c.toNat ∧ c.toNat ≤ 57)

/-- Python `s.strip()`. -/
def pyStrip (s : Str) : Str :=
  ((s.dropWhile isPySpace).reverse.dropWhile isPySpace).reverse

/-- `re.sub(r"([a-z])([A-Z])", r"\1 \2", s)`: inserts a space between each
adjacent lowercase/uppercase pair.  Matches of this pattern can never
overlap (the second character of a match is uppercase and so cannot start
the next match), so the left-to-right substitution is exactly this. -/
def camelSplit : Str → Str
  | [] => []
  | [c] => [c]
  | a :: b :: t =>
      if isLowerA a && isUpperA b then a :: ' ' :: camelSplit (b :: t)
      else a :: camelSplit (b :: t)

/-- `re.sub(r"[cls]+", " ", s)`: replaces each maximal run of characters of
the class by a single space.  The Bool argument records whether the scan is
currently inside a run. -/
def collapseRuns (cls : Char → Bool) : Bool → Str → Str
  | _, [] => []
  | inRun, c :: t =>
      if cls c then
        if inRun then collapseRuns cls true t else ' ' :: collapseRuns cls true t
      else c :: collapseRuns cls false t

/-- automap.norm: strip, split camelCase, normalize separators, collapse
whitespace, lowercase, strip. -/
def norm (s : Str) : Str :=
  pyStrip ((collapseRuns isPySpace false
    (collapseRuns isSepChar false (camelSplit (pyStrip s)))).map Char.toLower)

/-- Python `s.split(" ")` (split at every single space). -/
def splitSp : Str → List Str
  | [] => [[]]
  | c :: t =>
      if c = ' ' then [] :: splitSp t
      else
        match splitSp t with
        | [] => [[c]]
        | h :: r => (c :: h) :: r

/-- Deduplication keeping first occurrences (Python `dict.fromkeys` /
building a `set`; only membership and cardinality of the result are ever
used, so the list order stands in for the set). -/
def pyDedupGo {α : Type} [DecidableEq α] : List α → List α → List α
  | _, [] => []
  | seen, x :: t => if x ∈ seen then pyDedupGo seen t else x :: pyDedupGo (x :: seen) t

def pyDedup {α : Type} [DecidableEq α] (l : List α) : List α := pyDedupGo [] l

/-- automap.tokens: the set of nonempty tokens of the normalized string. -/
def tokens (s : Str) : List Str :=
  pyDedup ((splitSp (norm s)).filter (fun t => !t.isEmpty))

/-- `len(a & b)` for the token sets (lists already deduplicated). -/
def interLen (a b : List Str) : Nat := (a.filter (fun x => decide (x ∈ b))).length

/-- `len(a | b)` for the token sets. -/
def unionLen (a b : List Str) : Nat :=
  a.length + (b.filter (fun x => decide (¬ x ∈ a))).length

/-- automap.jaccard. -/
def jaccard (a b : List Str) : Rat :=
  if a = [] ∧ b = [] then 1
  else
    let u := unionLen a b
    let u := if u = 0 then 1 else u
    (interLen a b : Rat) / (u : Rat)

/-- Python `max(iterable, default=d)`. -/
def maxD (d : Rat) : List Rat → Rat
  | [] => d
  | x :: t => t.foldl max x

/-- Inner loop of the two-row Levenshtein DP: given `pj1 = prev[j-1]`,
`pj :: ps = prev[j..]` and `cj1 = cur[j-1]`, produces `cur[j..]`. -/
def distRow (ai : Char) : Str → Nat → List Nat → Nat → List Nat
  | [], _, _, _ => []
  | _ :: _, _, [], _ => []
  | b :: bs, pj1, pj :: ps, cj1 =>
      let c := min (pj + 1) (min (cj1 + 1) (pj1 + (if ai = b then 0 else 1)))
      c :: distRow ai bs pj ps c

/-- Outer loop of the DP: one row per character of the first string. -/
def edRows (B : Str) : Str → List Nat → Nat → List Nat
  | [], prev, _ => prev
  | a :: as, prev, i =>
      match prev with
      | [] => []
      | p0 :: ps => edRows B as (i :: distRow a B p0 ps i) (i + 1)

/-- automap.edit_distance: two-row Levenshtein DP over the normalized
strings; the result is `prev[lb]` (the rows always have length lb+1). -/
def edit_distance (a b : Str) : Nat :=
  let A := norm a
  let B := norm b
  if A.length = 0 then B.length
  else if B.length = 0 then A.length
  else (edRows B A (List.range (B.length + 1)) 1).getD B.length 0

/-- automap.fuzzy_score. -/
def fuzzy_score (h al : Str) : Rat :=
  let hn := norm h
  let an := norm al
  if hn = an then 1
  else
    let dist := edit_distance hn an
    let maxLen := max hn.length an.length
    let maxLen := if maxLen = 0 then 1 else maxLen
    1 - (dist : Rat) / (maxLen : Rat)

/-- A character of the regex class `[^\s@]`. -/
def wChar (c : Char) : Bool := !isPySpace c && c ≠ '@'

/-- Matches `[^\s@]+\.[^\s]+$` against the whole of r (match existence is a
split of r at some literal dot). -/
def emailRest (r : Str) : Bool :=
  (List.range r.length).any (fun i =>
    decide (1 ≤ i) && decide (r.getD i ' ' = '.') && (r.take i).all wChar &&
      decide (i + 1 < r.length) && (r.drop (i + 1)).all (fun c => !isPySpace c))

/-- EMAIL_RE `^[^\s@]+@[^\s@]+\.[^\s]+$` with re.match: a full-string
match.  The first part cannot contain `@`, so it necessarily ends at the
first `@` of the string. -/
def emailMatch (v : Str) : Bool :=
  let u := v.takeWhile (fun c => c ≠ '@')
  if u.length = v.length then false
  else !u.isEmpty && u.all wChar && emailRest (v.drop (u.length + 1))

/-- The regex class `[\d\s().-]` of PHONE_RE. -/
def phoneChar (c : Char) : Bool :=
  isDigitA c || isPySpace c || c = '(' || c = ')' || c = '.' || c = '-'

/-- Scans for a run of at least 7 consecutive phone-class characters. -/
def phoneRun : Str → Nat → Bool
  | [], k => decide (7 ≤ k)
  | c :: t, k =>
      if phoneChar c then phoneRun t (k + 1)
      else (decide (7 ≤ k) || phoneRun t 0)

/-- PHONE_RE `\+?[\d\s().-]{7,}` with re.search: succeeds exactly when the
string contains 7 consecutive characters of the class (the optional `+`
never changes match existence). -/
def phoneMatch (v : Str) : Bool := phoneRun v 0

/-- The negated class `[^\s/$.?#]` for the first host character. -/
def urlHostBad (c : Char) : Bool :=
  isPySpace c || c = '/' || c = '$' || c = '.' || c = '?' || c = '#'

/-- The part of URL_RE after the scheme: `[^\s/$.?#].[^\s]*$` (the regex
dot matches anything except a newline). -/
def urlRest (r : Str) : Bool :=
  decide (2 ≤ r.length) && !urlHostBad (r.getD 0 ' ') &&
    decide (r.getD 1 ' ' ≠ '\n') && (r.drop 2).all (fun c => !isPySpace c)

/-- URL_RE `^https?://[^\s/$.?#].[^\s]*$` with re.match and re.I (the
case-insensitivity only affects the scheme letters). -/
def urlMatch (v : Str) : Bool :=
  let lv := v.map Char.toLower
  (decide (lv.take 7 = chars "http://") && urlRest (v.drop 7)) ||
    (decide (lv.take 8 = chars "https://") && urlRest (v.drop 8))

/-- Python `v.replace('.', '', 1)`. -/
def removeFirstDot : Str → Str
  | [] => []
  | c :: t => if c = '.' then t else c :: removeFirstDot t

/-- The sniffer's guard `v.replace('.', '', 1).lstrip('-').isdigit()`.
Note that `lstrip('-')` strips every leading minus sign. -/
def guardOk (v : Str) : Bool :=
  let w := (removeFirstDot v).dropWhile (fun c => c = '-')
  !w.isEmpty && w.all isDigitA

def natValD : Str → Nat → Nat
  | [], acc => acc
  | c :: t, acc => natValD t (acc * 10 + (c.toNat - '0'.toNat))

/-- Models Python `float()` on the sign/digits/dot fragment, the only
shapes that can reach it behind the isdigit guard in sniff_type (no
exponents, spaces, inf/nan or underscores survive that guard).  `none`
models a raised ValueError. -/
def pyFloatCore (v : Str) : Option Rat :=
  let ip := v.takeWhile isDigitA
  let rest := v.drop ip.length
  match rest with
  | [] => if ip.isEmpty then none else some (natValD ip 0 : Rat)
  | '.' :: frac =>
      if (ip.isEmpty && frac.isEmpty) || !frac.all isDigitA then none
      else some ((natValD ip 0 : Rat) + (natValD frac 0 : Rat) / ((10 : Rat) ^ frac.length))
  | _ => none

def pyFloat (v : Str) : Option Rat :=
  match v with
  | '-' :: rest => (pyFloatCore rest).map (fun q => -q)
  | '+' :: rest => pyFloatCore rest
  | _ => pyFloatCore v

/-- One lat/lng predicate evaluation
`v.replace('.','',1).lstrip('-').isdigit() and lo <= float(v) <= hi`:
`none` when the guard passes but `float(v)` raises. -/
def rangeMatch (lo hi : Rat) (v : Str) : Option Bool :=
  if guardOk v then (pyFloat v).map (fun q => decide (lo ≤ q ∧ q ≤ hi))
  else some false

/-- `sum(1 for v in sample if pred(v))` for a predicate that can raise. -/
def countM (p : Str → Option Bool) : List Str → Option Nat
  | [] => some 0
  | v :: t =>
      match p v with
      | none => none
      | some b => (countM p t).map (fun k => k + (if b then 1 else 0))

structure Flags where
  email : Bool
  phone : Bool
  website : Bool
  lat : Bool
  lng : Bool
deriving DecidableEq

/-- The sniffer's sample
`[str(v).strip() for v in values[:50] if v is not None and str(v).strip() != ""]`:
the 50-cap is applied to the raw value list before blanks and nulls are
filtered out. -/
def sampleOf (values : List (Option Str)) : List Str :=
  (values.take 50).filterMap (fun v =>
    match v with
    | none => none
    | some s => let t := pyStrip s; if t = [] then none else some t)

/-- automap.sniff_type.  Returns `none` when the Python code raises
(float() on a guard-passing but unparsable string in the lat/lng counts;
the email/phone/website counts are total, so evaluation order is
immaterial).  `int(n*0.2)` and `int(n*0.6)` are modelled by the exact
floors `n/5` and `3*n/5`, which agree with the float computation for every
reachable sample size n ≤ 50. -/
def sniff_type (values : List (Option Str)) : Option Flags :=
  let sample := sampleOf values
  let n := sample.length
  if n = 0 then some ⟨false, false, false, false, false⟩
  else
    let t20 := max 2 (n / 5)
    match countM (rangeMatch (-90) 90) sample, countM (rangeMatch (-180) 180) sample with
    | some lc, some gc =>
        some ⟨decide (t20 ≤ (sample.filter emailMatch).length),
              decide (t20 ≤ (sample.filter phoneMatch).length),
              decide (t20 ≤ (sample.filter urlMatch).length),
              decide (3 * n / 5 ≤ lc),
              decide (3 * n / 5 ≤ gc)⟩
    | _, _ => none

/-- `sniff_flags[h].get(field)` (a missing key is falsy). -/
def flagsGet (f : Flags) (field : Str) : Bool :=
  if field = chars "email" then f.email
  else if field = chars "phone" then f.phone
  else if field = chars "website" then f.website
  else if field = chars "lat" then f.lat
  else if field = chars "lng" then f.lng
  else false

/-- The built-in alias table (automap.ALIASES), in source order. -/
def ALIASES : List (Str × List Str) := [
  (chars "name", [chars "name", chars "business_name", chars "company",
    chars "title", chars "listing_name"]),
  (chars "address", [chars "address", chars "street", chars "street1",
    chars "addr1", chars "line1"]),
  (chars "address2", [chars "address2", chars "street2", chars "addr2",
    chars "line2", chars "suite", chars "unit", chars "apt"]),
  (chars "city", [chars "city", chars "town", chars "locality"]),
  (chars "state", [chars "state", chars "province", chars "region",
    chars "state_province", chars "admin_area"]),
  (chars "postal_code", [chars "zip", chars "zipcode", chars "postal",
    chars "postal_code", chars "post_code", chars "postcode"]),
  (chars "country", [chars "country", chars "country_code", chars "nation",
    chars "iso2", chars "iso3"]),
  (chars "phone", [chars "phone", chars "tel", chars "telephone",
    chars "mobile", chars "cell", chars "contact_phone"]),
  (chars "email", [chars "email", chars "e-mail", chars "contact_email"]),
  (chars "website", [chars "website", chars "url", chars "link",
    chars "homepage", chars "site"]),
  (chars "lat", [chars "lat", chars "latitude", chars "y"]),
  (chars "lng", [chars "lng", chars "long", chars "longitude", chars "x"]),
  (chars "category", [chars "category", chars "type", chars "segment",
    chars "vertical"]),
  (chars "tags", [chars "tags", chars "keywords", chars "labels"]),
  (chars "description", [chars "description", chars "about", chars "summary",
    chars "blurb"]),
  (chars "hours", [chars "hours", chars "opening_hours", chars "open_hours",
    chars "schedule"]),
  (chars "price", [chars "price", chars "cost", chars "pricing",
    chars "price_level"]),
  (chars "rating", [chars "rating", chars "stars", chars "score"])]

/-- First-match association lookup (Python dict access on unique keys). -/
def lookupS {α : Type} (k : Str) : List (Str × α) → Option α
  | [] => none
  | p :: t => if p.1 = k then some p.2 else lookupS k t

/-- One entry of the merged alias table:
`list(dict.fromkeys(ALIASES.get(k, []) + learned_aliases.get(k, [])))`. -/
def mergedAliases (learned : List (Str × List Str)) (k : Str) : List Str :=
  pyDedup ((lookupS k ALIASES).getD [] ++ (lookupS k learned).getD [])

/-- A sample row: an association from header to cell value, `none` being
Python None. -/
abbrev Row := List (Str × Option Str)

/-- `samples_by_header[h]`: the values of column h over the rows, skipping
rows where the key is absent or the value is None. -/
def samplesFor (rows : List Row) (h : Str) : List Str :=
  rows.filterMap (fun r =>
    match lookupS h r with
    | some (some v) => some v
    | _ => none)

/-- Python `round()` (half to even) followed by `int()`. -/
def pyRound (q : Rat) : Int :=
  if q - (q.floor : Rat) < 1/2 then q.floor
  else if 1/2 < q - (q.floor : Rat) then q.floor + 1
  else if q.floor % 2 = 0 then q.floor else q.floor + 1

/-- The per-(field, header) score of the Scorer (body of the inner loop of
auto_map_columns), including the final `int(round(sc))`. -/
def scoreOne (field : Str) (aliasL : List Str) (flags : Flags) (h : Str) : Int :=
  let hn := norm h
  let ht := tokens h
  let sc : Rat := 0
  let sc := if ∃ a ∈ aliasL, norm a = hn then sc + 100 else sc
  let sc := if aliasL ≠ [] then
      sc + 70 * maxD 0 (aliasL.map (fun a => jaccard ht (tokens a)))
         + 40 * maxD 0 (aliasL.map (fun a => fuzzy_score h a))
    else sc
  let sc := if flagsGet flags field then sc + 30 else sc
  let sc := if field = chars "postal_code" ∧ (hn = chars "zip" ∨ hn = chars "zipcode")
    then sc + 10 else sc
  let sc := if field = chars "phone" ∧ (hn = chars "tel" ∨ hn = chars "telephone")
    then sc + 10 else sc
  let sc := if field = chars "state" ∧ chars "status" ∈ ht then sc - 30 else sc
  pyRound sc

structure ScoreEntry where
  header : Str
  score : Int
deriving DecidableEq

/-- Stable insertion keeping the incoming (earlier) entry before entries of
equal score: the unique result of Python's stable descending sort. -/
def insDesc (e : ScoreEntry) : List ScoreEntry → List ScoreEntry
  | [] => [e]
  | y :: t => if y.score ≤ e.score then e :: y :: t else y :: insDesc e t

/-- `sorted(scored, key=score, reverse=True)` (stable, descending). -/
def sortDesc : List ScoreEntry → List ScoreEntry
  | [] => []
  | x :: t => insDesc x (sortDesc t)

def noFlags : Flags := ⟨false, false, false, false, false⟩

/-- The unsorted `scored` list of auto_map_columns for one field (one entry
per header, in header order).  `sniff_flags[h]` always finds h, so the
default is unreachable. -/
def rawScores (headers : List Str) (sniffL : List (Str × Flags))
    (field : Str) (aliasL : List Str) : List ScoreEntry :=
  headers.map (fun h => ⟨h, scoreOne field aliasL ((lookupS h sniffL).getD noFlags) h⟩)

abbrev ScoresT := List (Str × List ScoreEntry)

/-- The Scorer's full output: for every field of the merged-table
enumeration `ord`, the stably descending-sorted score list. -/
def buildScores (headers : List Str) (sniffL : List (Str × Flags))
    (learned : List (Str × List Str)) (ord : List Str) : ScoresT :=
  ord.map (fun f => (f, sortDesc (rawScores headers sniffL f (mergedAliases learned f))))

/-- `sniff_flags = {h: sniff_type(samples_by_header.get(h, [])) for h in headers}`;
`none` when some sniff raises. -/
def sniffTable (headers : List Str) (rows : List Row) :
    Option (List (Str × Flags)) :=
  headers.mapM (fun h => (sniff_type ((samplesFor rows h).map some)).map (fun fl => (h, fl)))

/-- `next((s for s in ranked if s["header"] not in chosen_headers), None)`. -/
def pickBest (ranked : List ScoreEntry) (chosen : List Str) : Option ScoreEntry :=
  ranked.find? (fun e => decide (¬ e.header ∈ chosen))

/-- One iteration of the Assigner loop. -/
def assignStep (t : Int) (st : List (Str × Str) × List Str)
    (p : Str × List ScoreEntry) : List (Str × Str) × List Str :=
  match pickBest p.2 st.2 with
  | some b => if t ≤ b.score then (st.1 ++ [(p.1, b.header)], b.header :: st.2) else st
  | none => st

/-- The Assigner: the greedy claim loop of auto_map_columns. -/
def assign (scores : ScoresT) (t : Int) : List (Str × Str) :=
  (scores.foldl (assignStep t) ([], [])).1

/-- automap.auto_map_columns.  `ord` is the iteration order of the merged
alias dict, inherited in the source from the set union
`set(ALIASES) | set(learned_aliases)` whose enumeration order Python
leaves implementation defined; it is passed as an explicit parameter.
`none` models the ValueError that sniffing can propagate. -/
def auto_map_columns (headers : List Str) (rows : List Row)
    (learned : List (Str × List Str)) (threshold : Int) (ord : List Str) :
    Option (List (Str × Str) × ScoresT) :=
  (sniffTable headers rows).map (fun sniffL =>
    let scores := buildScores headers sniffL learned ord
    (assign scores threshold, scores))

/-- automap.top_candidates. -/
def top_candidates (scores : ScoresT) (field : Str) (k : Nat) : List (Str × Int) :=
  (((lookupS field scores).getD []).take k).map (fun e => (e.header, e.score))

/-- The distinct keys of an alias table (`set(d)` of a dict). -/
def keysOf (t : List (Str × List Str)) : List Str := pyDedup (t.map Prod.fst)

/-- Follows the spec's words (refinement comparison for C6): "built-in
field order first, then any learned-only fields". -/
def builtinFirst (learned : List (Str × List Str)) : List Str :=
  keysOf ALIASES ++ (keysOf learned).filter (fun k => decide (¬ k ∈ keysOf ALIASES))

/-- `ord` is a possible enumeration of `set(ALIASES) | set(learned)`:
duplicate-free and with exactly the union as members. -/
def validOrd (ord : List Str) (learned : List (Str × List Str)) : Prop :=
  ord.Nodup ∧ (∀ f ∈ ord, f ∈ keysOf ALIASES ∨ f ∈ keysOf learned) ∧
    (∀ f ∈ keysOf ALIASES, f ∈ ord) ∧ (∀ f ∈ keysOf learned, f ∈ ord)

/-- Follows the spec's words (refinement comparison for C4): "take up to
the first 50 non-null, non-blank values (after stripping)" - the cap
applied after filtering. -/
def sampleSpec (values : List (Option Str)) : List Str :=
  (values.filterMap (fun v =>
    match v with
    | none => none
    | some s => let t := pyStrip s; if t = [] then none else some t)).take 50

/-- Relation between the Assigner states of a low-threshold run (st1) and a
high-threshold run (st2) over the same score lists. -/
def monoInv (st1 st2 : List (Str × Str) × List Str) : Prop :=
  st2.2 ⊆ st1.2 ∧ st1.2.Nodup ∧ st2.2.Nodup ∧
    st1.1.length = st1.2.length ∧ st2.1.length = st2.2.length

/-- Concrete learned-alias table making "name" an alias of two fields. -/
def learned0 : List (Str × List Str) := [(chars "category", [chars "name"])]

/-- A legitimate enumeration of set(ALIASES) | set(learned0) that is not
in built-in-first order. -/
def ord2 : List Str :=
  chars "category" :: (ALIASES.map Prod.fst).filter (fun k => decide (k ≠ chars "category"))

/-! ### Lemmas about the stable descending sort -/

theorem insDesc_perm (e : ScoreEntry) (l : List ScoreEntry) :
    (insDesc e l).Perm (e :: l) := by
  induction l with
  | nil => exact List.Perm.refl _
  | cons y t ih =>
    by_cases h : y.score ≤ e.score
    · simp only [insDesc, if_pos h]
      exact List.Perm.refl _
    · simp only [insDesc, if_neg h]
      exact (ih.cons y).trans (List.Perm.swap e y t)

theorem sortDesc_perm (l : List ScoreEntry) : (sortDesc l).Perm l := by
  induction l with
  | nil => exact List.Perm.refl _
  | cons x t ih => exact (insDesc_perm x (sortDesc t)).trans (ih.cons x)

theorem insDesc_sorted (e : ScoreEntry) (l : List ScoreEntry)
    (h : l.Pairwise (fun a b => b.score ≤ a.score)) :
    (insDesc e l).Pairwise (fun a b => b.score ≤ a.score) := by
  induction l with
  | nil => simp [insDesc]
  | cons y t ih =>
    rcases List.pairwise_cons.1 h with ⟨hy, ht⟩
    by_cases hc : y.score ≤ e.score
    · simp only [insDesc, if_pos hc]
      refine List.pairwise_cons.2 ⟨?_, h⟩
      intro z hz
      rcases List.mem_cons.1 hz with rfl | hz2
      · exact hc
      · exact le_trans (hy z hz2) hc
    · simp only [insDesc, if_neg hc]
      refine List.pairwise_cons.2 ⟨?_, ih ht⟩
      intro z hz
      rcases List.mem_cons.1 ((insDesc_perm e t).mem_iff.1 hz) with rfl | hz2
      · exact le_of_lt (lt_of_not_le hc)
      · exact hy z hz2

theorem sortDesc_sorted (l : List ScoreEntry) :
    (sortDesc l).Pairwise (fun a b => b.score ≤ a.score) := by
  induction l with
  | nil => simp [sortDesc]
  | cons x t ih => exact insDesc_sorted x (sortDesc t) ih

theorem insDesc_filter_score (c : Int) (e : ScoreEntry) (l : List ScoreEntry) :
    (insDesc e l).filter (fun x => decide (x.score = c)) =
      (e :: l).filter (fun x => decide (x.score = c)) := by
  induction l with
  | nil => simp [insDesc]
  | cons y t ih =>
    by_cases hc : y.score ≤ e.score
    · simp only [insDesc, if_pos hc]
    · simp only [insDesc, if_neg hc]
      rw [List.filter_cons, ih]
      by_cases he : e.score = c
      · have hy : ¬ (y.score = c) := fun h0 => hc (le_of_eq (by rw [h0, he]))
        simp [List.filter_cons, he, hy]
      · simp [List.filter_cons, he]

theorem sortDesc_filter_score (c : Int) (l : List ScoreEntry) :
    (sortDesc l).filter (fun x => decide (x.score = c)) =
      l.filter (fun x => decide (x.score = c)) := by
  induction l with
  | nil => rfl
  | cons x t ih =>
    have h1 := insDesc_filter_score c x (sortDesc t)
    simp only [sortDesc, h1, List.filter_cons, decide_eq_true_eq, ih]

/-! ### Generic helpers for the Assigner's fold -/

theorem foldl_inv {α β : Type} (f : β → α → β) (P : β → Prop)
    (hstep : ∀ b a, P b → P (f b a)) :
    ∀ (l : List α) (b : β), P b → P (l.foldl f b)
  | [], _, hb => hb
  | a :: l, b, hb => foldl_inv f P hstep l (f b a) (hstep b a hb)

theorem find?_congr {α : Type} (p q : α → Bool) (l : List α) (a : α)
    (h : l.find? p = some a) (hpq : ∀ x, p x = false → q x = false)
    (hq : q a = true) : l.find? q = some a := by
  induction l with
  | nil => simp at h
  | cons y t ih =>
    cases hpy : p y with
    | true =>
      rw [List.find?_cons_of_pos _ hpy] at h
      injection h with h
      subst h
      rw [List.find?_cons_of_pos _ hq]
    | false =>
      rw [List.find?_cons_of_neg _ (by simp [hpy])] at h
      rw [List.find?_cons_of_neg _ (by simp [hpq y hpy])]
      exact ih h

theorem find?_eq_head_of_all {α : Type} (p : α → Bool) (l : List α)
    (hall : ∀ x ∈ l, p x = true) : l.find? p = l.head? := by
  cases l with
  | nil => rfl
  | cons y t => rw [List.find?_cons_of_pos _ (hall y (List.mem_cons_self y t))]; rfl

/-! ### The Assigner never assigns one header to two fields (C1 core) -/

theorem assignStep_distinct (t : Int) (p : Str × List ScoreEntry)
    (st : List (Str × Str) × List Str)
    (h : (st.1.map Prod.snd).Nodup ∧ ∀ v ∈ st.1.map Prod.snd, v ∈ st.2) :
    (((assignStep t st p).1.map Prod.snd).Nodup ∧
      ∀ v ∈ (assignStep t st p).1.map Prod.snd, v ∈ (assignStep t st p).2) := by
  obtain ⟨h1, h2⟩ := h
  unfold assignStep
  cases hb : pickBest p.2 st.2 with
  | none => exact ⟨h1, h2⟩
  | some b =>
    by_cases ht : t ≤ b.score
    · simp only [if_pos ht]
      have hbn : ¬ b.header ∈ st.2 := by
        have := List.find?_some hb
        simpa using this
      have hbm : ¬ b.header ∈ st.1.map Prod.snd := fun hm => hbn (h2 _ hm)
      constructor
      · simp only [List.map_append, List.map_cons, List.map_nil]
        exact List.nodup_append.2 ⟨h1, List.nodup_singleton _,
          by intro v hv hv2; simp at hv2; exact hbm (hv2 ▸ hv)⟩
      · intro v hv
        simp only [List.map_append, List.map_cons, List.map_nil, List.mem_append,
          List.mem_singleton] at hv
        rcases hv with hv | hv
        · exact List.mem_cons_of_mem _ (h2 v hv)
        · exact hv ▸ List.mem_cons_self _ _
    · simp only [if_neg ht]
      exact ⟨h1, h2⟩

theorem assign_values_nodup (scores : ScoresT) (t : Int) :
    ((assign scores t).map Prod.snd).Nodup := by
  have := foldl_inv (assignStep t)
    (fun st => (st.1.map Prod.snd).Nodup ∧ ∀ v ∈ st.1.map Prod.snd, v ∈ st.2)
    (fun st p hp => assignStep_distinct t p st hp) scores ([], [])
    (by constructor <;> simp)
  exact this.1

/-! ### Threshold monotonicity of the Assigner (C2 core) -/

theorem assignStep_mono {t1 t2 : Int} (h12 : t1 ≤ t2) (p : Str × List ScoreEntry)
    {st1 st2 : List (Str × Str) × List Str} (h : monoInv st1 st2) :
    monoInv (assignStep t1 st1 p) (assignStep t2 st2 p) := by
  obtain ⟨hsub, hn1, hn2, hl1, hl2⟩ := h
  have step1_keep : ∀ (st : List (Str × Str) × List Str) (t : Int),
      st.2.Nodup → st.1.length = st.2.length →
      ((assignStep t st p).2.Nodup ∧ (assignStep t st p).1.length = (assignStep t st p).2.length ∧
        st.2 ⊆ (assignStep t st p).2) := by
    intro st t hn hl
    unfold assignStep
    cases hb : pickBest p.2 st.2 with
    | none => exact ⟨hn, hl, fun x hx => hx⟩
    | some b =>
      by_cases ht : t ≤ b.score
      · simp only [if_pos ht]
        have hbn : ¬ b.header ∈ st.2 := by simpa using List.find?_some hb
        refine ⟨List.nodup_cons.2 ⟨hbn, hn⟩, ?_, fun x hx => List.mem_cons_of_mem _ hx⟩
        simp [hl]
      · simp only [if_neg ht]
        exact ⟨hn, hl, fun x hx => hx⟩
  cases hb2 : pickBest p.2 st2.2 with
  | none =>
    have k1 := step1_keep st1 t1 hn1 hl1
    have e2 : assignStep t2 st2 p = st2 := by unfold assignStep; rw [hb2]
    rw [e2]
    exact ⟨fun x hx => k1.2.2 (hsub hx), k1.1, hn2, k1.2.1, hl2⟩
  | some e =>
    have hem : e ∈ p.2 := List.mem_of_find?_eq_some hb2
    have hen2 : ¬ e.header ∈ st2.2 := by simpa using List.find?_some hb2
    by_cases hmem : e.header ∈ st1.2
    · -- the header run 2 would take is already claimed in run 1
      have k1 := step1_keep st1 t1 hn1 hl1
      have hsub2 : (assignStep t2 st2 p).2 ⊆ (assignStep t1 st1 p).2 := by
        unfold assignStep
        rw [hb2]
        by_cases ht : t2 ≤ e.score
        · simp only [if_pos ht]
          intro x hx
          rcases List.mem_cons.1 hx with rfl | hx2
          · exact ((step1_keep st1 t1 hn1 hl1).2.2) hmem
          · exact ((step1_keep st1 t1 hn1 hl1).2.2) (hsub hx2)
        · simp only [if_neg ht]
          intro x hx
          exact ((step1_keep st1 t1 hn1 hl1).2.2) (hsub hx)
      have k2 : (assignStep t2 st2 p).2.Nodup ∧
          (assignStep t2 st2 p).1.length = (assignStep t2 st2 p).2.length := by
        unfold assignStep
        rw [hb2]
        by_cases ht : t2 ≤ e.score
        · simp only [if_pos ht]
          exact ⟨List.nodup_cons.2 ⟨hen2, hn2⟩, by simp [hl2]⟩
        · simp only [if_neg ht]
          exact ⟨hn2, hl2⟩
      exact ⟨hsub2, k1.1, k2.1, k1.2.1, k2.2⟩
    · -- run 1 considers the same entry e
      have hb1 : pickBest p.2 st1.2 = some e := by
        refine find?_congr _ _ p.2 e hb2 ?_ ?_
        · intro x hx
          simp only [decide_eq_false_iff_not, not_not] at hx ⊢
          exact hsub hx
        · simpa using hmem
      by_cases ht2 : t2 ≤ e.score
      · have ht1 : t1 ≤ e.score := le_trans h12 ht2
        have e1 : assignStep t1 st1 p = (st1.1 ++ [(p.1, e.header)], e.header :: st1.2) := by
          unfold assignStep; rw [hb1]; simp [ht1]
        have e2 : assignStep t2 st2 p = (st2.1 ++ [(p.1, e.header)], e.header :: st2.2) := by
          unfold assignStep; rw [hb2]; simp [ht2]
        rw [e1, e2]
        refine ⟨?_, List.nodup_cons.2 ⟨hmem, hn1⟩, List.nodup_cons.2 ⟨hen2, hn2⟩,
          by simp [hl1], by simp [hl2]⟩
        intro x hx
        rcases List.mem_cons.1 hx with rfl | hx2
        · exact List.mem_cons_self _ _
        · exact List.mem_cons_of_mem _ (hsub hx2)
      · have e2 : assignStep t2 st2 p = st2 := by
          unfold assignStep; rw [hb2]; simp [ht2]
        rw [e2]
        have k1 := step1_keep st1 t1 hn1 hl1
        exact ⟨fun x hx => k1.2.2 (hsub hx), k1.1, hn2, k1.2.1, hl2⟩

theorem assign_mono (scores : ScoresT) {t1 t2 : Int} (h12 : t1 ≤ t2) :
    (assign scores t2).length ≤ (assign scores t1).length := by
  have main : ∀ (L : ScoresT) (st1 st2 : List (Str × Str) × List Str),
      monoInv st1 st2 →
      monoInv (L.foldl (assignStep t1) st1) (L.foldl (assignStep t2) st2) := by
    intro L
    induction L with
    | nil => intro st1 st2 h; exact h
    | cons p L ih =>
      intro st1 st2 h
      exact ih _ _ (assignStep_mono h12 p h)
  have h := main scores ([], []) ([], []) ⟨fun x hx => hx, List.nodup_nil,
    List.nodup_nil, rfl, rfl⟩
  obtain ⟨hsub, hn1, hn2, hl1, hl2⟩ := h
  unfold assign
  rw [hl1, hl2]
  exact (List.Nodup.subperm hn2 hsub).length_le

/-! ### Score lower bound for exact alias matches (C7 core) -/

theorem le_foldl_max (a : Rat) : ∀ (t : List Rat) (b : Rat), a ≤ b → a ≤ t.foldl max b
  | [], _, h => h
  | c :: t, b, h => le_foldl_max a t (max b c) (le_trans h (le_max_left b c))

theorem mem_le_foldl_max (a : Rat) : ∀ (t : List Rat) (b : Rat), a ∈ t → a ≤ t.foldl max b
  | c :: t, b, h => by
    rcases List.mem_cons.1 h with rfl | h2
    · exact le_foldl_max a t (max b a) (le_max_right b a)
    · exact mem_le_foldl_max a t (max b c) h2

theorem le_maxD_of_mem {a : Rat} {l : List Rat} (d : Rat) (h : a ∈ l) : a ≤ maxD d l := by
  cases l with
  | nil => simp at h
  | cons x t =>
    rcases List.mem_cons.1 h with rfl | h2
    · exact le_foldl_max a t a le_rfl
    · exact mem_le_foldl_max a t x h2

theorem jaccard_self (a : List Str) : jaccard a a = 1 := by
  unfold jaccard
  by_cases h : a = []
  · simp [h]
  · rw [if_neg (by simp [h])]
    have h1 : interLen a a = a.length := by
      unfold interLen
      rw [List.filter_eq_self.2 (by intro x hx; simpa using hx)]
    have h2 : unionLen a a = a.length := by
      unfold unionLen
      rw [List.filter_eq_nil_iff.2 (by intro x hx; simpa using hx)]
      simp
    have hn : a.length ≠ 0 := by simpa [List.length_eq_zero] using h
    simp only [h2, if_neg hn, h1]
    rw [div_self (by exact_mod_cast hn)]


theorem fuzzy_eq_one {h a : Str} (hn : norm a = norm h) : fuzzy_score h a = 1 := by
  unfold fuzzy_score
  rw [if_pos hn.symm]

theorem pyRound_ge_floor (q : Rat) : q.floor ≤ pyRound q := by
  unfold pyRound
  split_ifs <;> omega

theorem le_pyRound {n : Int} {q : Rat} (h : (n : Rat) ≤ q) : n ≤ pyRound q := by
  have h1 : n ≤ q.floor := Rat.le_floor.2 h
  exact le_trans h1 (pyRound_ge_floor q)

theorem scoreOne_ge_of_exact (field : Str) (aliasL : List Str) (flags : Flags)
    (h : Str) (hex : ∃ a ∈ aliasL, norm a = norm h) :
    100 ≤ scoreOne field aliasL flags h := by
  obtain ⟨a, ha, hna⟩ := hex
  have hne : aliasL ≠ [] := by rintro rfl; simp at ha
  have htok : tokens a = tokens h := by unfold tokens; rw [hna]
  have hj : (1 : Rat) ≤ maxD 0 (aliasL.map (fun x => jaccard (tokens h) (tokens x))) := by
    refine le_maxD_of_mem 0 ?_
    have : jaccard (tokens h) (tokens a) = 1 := by rw [htok]; exact jaccard_self _
    exact this ▸ List.mem_map_of_mem _ ha
  have hf : (1 : Rat) ≤ maxD 0 (aliasL.map (fun x => fuzzy_score h x)) := by
    refine le_maxD_of_mem 0 ?_
    exact (fuzzy_eq_one hna) ▸ List.mem_map_of_mem _ ha
  simp only [scoreOne]
  apply le_pyRound
  split_ifs
  all_goals
    first
    | exact absurd (⟨a, ha, hna⟩ : ∃ x ∈ aliasL, norm x = norm h) (by assumption)
    | exact absurd hne (by assumption)
    | (push_cast; nlinarith [hj, hf])

/-! ### Bounds for the edit-distance DP and fuzzy_score (C10 core) -/

theorem distRow_bound (ai : Char) :
    ∀ (B : Str) (pj1 : Nat) (prest : List Nat) (cj1 i j0 : Nat),
      pj1 ≤ max i j0 → (∀ k, prest.getD k 0 ≤ max i (j0 + 1 + k)) →
      ∀ m, (distRow ai B pj1 prest cj1).getD m 0 ≤ max (i + 1) (j0 + 1 + m) := by
  intro B
  induction B with
  | nil => intro pj1 prest cj1 i j0 h1 h2 m; simp [distRow]
  | cons b bs ih =>
    intro pj1 prest cj1 i j0 h1 h2 m
    cases prest with
    | nil => simp [distRow]
    | cons pj ps =>
      simp only [distRow]
      cases m with
      | zero =>
        simp only [List.getD_cons_zero]
        have hc : min (pj + 1) (min (cj1 + 1) (pj1 + (if ai = b then 0 else 1))) ≤
            pj1 + 1 := le_trans (min_le_right _ _) (le_trans (min_le_right _ _) (by split <;> omega))
        have : pj1 + 1 ≤ max i j0 + 1 := by omega
        have hm : max i j0 + 1 ≤ max (i + 1) (j0 + 1 + 0) := by omega
        omega
      | succ m =>
        simp only [List.getD_cons_succ]
        have hpj : pj ≤ max i (j0 + 1) := by
          have := h2 0
          simpa using this
        have hps : ∀ k, ps.getD k 0 ≤ max i (j0 + 1 + 1 + k) := by
          intro k
          have := h2 (k + 1)
          have he : j0 + 1 + (k + 1) = j0 + 1 + 1 + k := by omega
          simpa [he] using this
        have := ih pj ps
          (min (pj + 1) (min (cj1 + 1) (pj1 + (if ai = b then 0 else 1))))
          i (j0 + 1) hpj hps m
        have he : j0 + 1 + 1 + m = j0 + 1 + (m + 1) := by omega
        omega

theorem edRows_bound (B : Str) :
    ∀ (A : Str) (prev : List Nat) (i : Nat),
      (∀ j, prev.getD j 0 ≤ max i j) →
      ∀ j, (edRows B A prev (i + 1)).getD j 0 ≤ max (i + A.length) j := by
  intro A
  induction A with
  | nil => intro prev i h j; simpa [edRows] using h j
  | cons a as ih =>
    intro prev i h j
    cases prev with
    | nil => simp [edRows]
    | cons p0 ps =>
      simp only [edRows]
      have hrow : ∀ j, ((i + 1) :: distRow a B p0 ps (i + 1)).getD j 0 ≤ max (i + 1) j := by
        intro j
        cases j with
        | zero => simp
        | succ m =>
          simp only [List.getD_cons_succ]
          have hp0 : p0 ≤ max i 0 := by simpa using h 0
          have hps : ∀ k, ps.getD k 0 ≤ max i (0 + 1 + k) := by
            intro k
            have := h (k + 1)
            simpa [Nat.add_comm] using this
          have := distRow_bound a B p0 ps (i + 1) i 0 hp0 hps m
          have he : 0 + 1 + m = m + 1 := by omega
          omega
      have := ih ((i + 1) :: distRow a B p0 ps (i + 1)) (i + 1) hrow j
      have he : i + 1 + as.length = i + (as.length + 1) := by omega
      simpa [he] using this

theorem getD_range_le (n j : Nat) : (List.range n).getD j 0 ≤ j := by
  rw [List.getD_eq_getElem?_getD]
  by_cases hj : j < n
  · simp [List.getElem?_range hj]
  · rw [List.getElem?_eq_none (by simpa using Nat.le_of_not_lt hj)]
    simp

theorem edit_distance_le_max (a b : Str) :
    edit_distance a b ≤ max (norm a).length (norm b).length := by
  unfold edit_distance
  by_cases h1 : (norm a).length = 0
  · simp [h1]
  · by_cases h2 : (norm b).length = 0
    · simp [h1, h2]
    · rw [if_neg h1, if_neg h2]
      have hinit : ∀ j, (List.range ((norm b).length + 1)).getD j 0 ≤ max 0 j := by
        intro j
        simpa using getD_range_le ((norm b).length + 1) j
      have := edRows_bound (norm b) (norm a) (List.range ((norm b).length + 1)) 0
        hinit (norm b).length
      simpa using this

theorem isUpperA_toLower (c : Char) : isUpperA (Char.toLower c) = false := by
  unfold Char.toLower
  by_cases h : c.toNat ≥ 65 ∧ c.toNat ≤ 90
  · rw [if_pos h]
    have hv : (c.toNat + 32).isValidChar := Or.inl (by omega)
    rw [Char.ofNat, dif_pos hv]
    have he : (Char.ofNatAux (c.toNat + 32) hv).toNat = c.toNat + 32 := rfl
    simp only [isUpperA, he, decide_eq_false_iff_not]
    omega
  · rw [if_neg h]
    simp only [isUpperA, decide_eq_false_iff_not]
    omega

theorem mem_pyStrip {c : Char} {s : Str} (h : c ∈ pyStrip s) : c ∈ s := by
  unfold pyStrip at h
  rw [List.mem_reverse] at h
  have h2 := (List.dropWhile_sublist _).mem h
  rw [List.mem_reverse] at h2
  exact (List.dropWhile_sublist _).mem h2

theorem noUpper_norm (s : Str) : ∀ c ∈ norm s, isUpperA c = false := by
  intro c hc
  have h2 := mem_pyStrip hc
  rw [List.mem_map] at h2
  obtain ⟨d, _, rfl⟩ := h2
  exact isUpperA_toLower d

theorem camelSplit_of_noUpper : ∀ (s : Str), (∀ c ∈ s, isUpperA c = false) →
    camelSplit s = s
  | [], _ => rfl
  | [c], _ => rfl
  | a :: b :: t, h => by
    have hb : isUpperA b = false := h b (List.mem_cons_of_mem a (List.mem_cons_self b t))
    rw [camelSplit, if_neg (by simp [hb]), camelSplit_of_noUpper (b :: t)
      (fun c hc => h c (List.mem_cons_of_mem a hc))]

theorem length_collapseRuns_le (cls : Char → Bool) :
    ∀ (s : Str) (flag : Bool), (collapseRuns cls flag s).length ≤ s.length
  | [], _ => le_rfl
  | c :: t, flag => by
    unfold collapseRuns
    have h1 := length_collapseRuns_le cls t true
    have h2 := length_collapseRuns_le cls t false
    by_cases hc : cls c = true
    · rw [if_pos hc]
      cases flag with
      | true =>
        rw [if_pos rfl]
        simp only [List.length_cons]
        omega
      | false =>
        rw [if_neg (by simp)]
        simp only [List.length_cons]
        omega
    · rw [if_neg hc]
      simp only [List.length_cons]
      omega

theorem length_pyStrip_le (s : Str) : (pyStrip s).length ≤ s.length := by
  unfold pyStrip
  calc ((s.dropWhile isPySpace).reverse.dropWhile isPySpace).reverse.length
      = ((s.dropWhile isPySpace).reverse.dropWhile isPySpace).length := List.length_reverse _
    _ ≤ (s.dropWhile isPySpace).reverse.length := (List.dropWhile_sublist _).length_le
    _ = (s.dropWhile isPySpace).length := List.length_reverse _
    _ ≤ s.length := (List.dropWhile_sublist _).length_le

theorem length_norm_le_of_noUpper {t : Str} (h : ∀ c ∈ t, isUpperA c = false) :
    (norm t).length ≤ t.length := by
  unfold norm
  have hcam : camelSplit (pyStrip t) = pyStrip t :=
    camelSplit_of_noUpper _ (fun c hc => h c (mem_pyStrip hc))
  rw [hcam]
  calc (pyStrip ((collapseRuns isPySpace false
        (collapseRuns isSepChar false (pyStrip t))).map Char.toLower)).length
      ≤ ((collapseRuns isPySpace false
        (collapseRuns isSepChar false (pyStrip t))).map Char.toLower).length :=
        length_pyStrip_le _
    _ = (collapseRuns isPySpace false (collapseRuns isSepChar false (pyStrip t))).length :=
        List.length_map _ _
    _ ≤ (collapseRuns isSepChar false (pyStrip t)).length := length_collapseRuns_le _ _ _
    _ ≤ (pyStrip t).length := length_collapseRuns_le _ _ _
    _ ≤ t.length := length_pyStrip_le _

theorem length_norm_norm_le (s : Str) : (norm (norm s)).length ≤ (norm s).length :=
  length_norm_le_of_noUpper (noUpper_norm s)

theorem fuzzy_score_mem_Icc (h al : Str) :
    0 ≤ fuzzy_score h al ∧ fuzzy_score h al ≤ 1 := by
  simp only [fuzzy_score]
  by_cases heq : norm h = norm al
  · rw [if_pos heq]
    norm_num
  · rw [if_neg heq]
    have hmax : max (norm h).length (norm al).length ≠ 0 := by
      intro h0
      rw [Nat.max_eq_zero_iff] at h0
      exact heq (by rw [List.length_eq_zero.1 h0.1, List.length_eq_zero.1 h0.2])
    rw [if_neg hmax]
    have hd : edit_distance (norm h) (norm al) ≤ max (norm h).length (norm al).length := by
      calc edit_distance (norm h) (norm al)
          ≤ max (norm (norm h)).length (norm (norm al)).length := edit_distance_le_max _ _
        _ ≤ max (norm h).length (norm al).length :=
            max_le_max (length_norm_norm_le h) (length_norm_norm_le al)
    generalize hD : edit_distance (norm h) (norm al) = d at hd
    generalize hM : max (norm h).length (norm al).length = M at hd hmax
    have hpos : (0 : Rat) < (M : Rat) := by exact_mod_cast Nat.pos_of_ne_zero hmax
    have hdr : ((d : Rat)) ≤ (M : Rat) := by exact_mod_cast hd
    constructor
    · have h1 : (d : Rat) / (M : Rat) ≤ 1 := by
        rw [div_le_one hpos]
        exact hdr
      linarith
    · have h0 : (0 : Rat) ≤ (d : Rat) / (M : Rat) :=
        div_nonneg (Nat.cast_nonneg d) (Nat.cast_nonneg M)
      linarith

/-! ### Linking auto_map_columns to its stages -/

theorem lookup_buildScores (headers : List Str) (sniffL : List (Str × Flags))
    (learned : List (Str × List Str)) :
    ∀ (ord : List Str) (f : Str) (ranked : List ScoreEntry),
      lookupS f (buildScores headers sniffL learned ord) = some ranked →
      ranked = sortDesc (rawScores headers sniffL f (mergedAliases learned f)) := by
  intro ord
  induction ord with
  | nil => intro f ranked h; simp [buildScores, lookupS] at h
  | cons g t ih =>
    intro f ranked h
    simp only [buildScores, List.map_cons] at h
    rw [lookupS] at h
    by_cases hg : g = f
    · rw [if_pos hg] at h
      injection h with h
      rw [← h, hg]
    · rw [if_neg hg] at h
      exact ih f ranked h

theorem auto_map_eq {headers : List Str} {rows : List Row}
    {learned : List (Str × List Str)} {threshold : Int} {ord : List Str}
    {m : List (Str × Str)} {s : ScoresT}
    (h : auto_map_columns headers rows learned threshold ord = some (m, s)) :
    ∃ sniffL, sniffTable headers rows = some sniffL ∧
      s = buildScores headers sniffL learned ord ∧
      m = assign (buildScores headers sniffL learned ord) threshold := by
  unfold auto_map_columns at h
  cases ht : sniffTable headers rows with
  | none => rw [ht] at h; simp at h
  | some sniffL =>
    rw [ht] at h
    simp only [Option.map_some'] at h
    injection h with h
    exact ⟨sniffL, rfl, (congrArg Prod.snd h).symm, (congrArg Prod.fst h).symm⟩

/-- The first field processed by the Assigner claims its top-ranked header
whenever that header's score meets the threshold, and no later field is
assigned that header. -/
theorem assign_first_field (f : Str) (ranked : List ScoreEntry) (rest : ScoresT)
    (t : Int) (e : ScoreEntry) (hh : ranked.head? = some e) (ht : t ≤ e.score) :
    ∃ mrest, assign ((f, ranked) :: rest) t = (f, e.header) :: mrest ∧
      ∀ q ∈ mrest, q.2 ≠ e.header := by
  unfold assign
  rw [List.foldl_cons]
  have h1 : assignStep t ([], []) (f, ranked) = ([(f, e.header)], [e.header]) := by
    unfold assignStep pickBest
    rw [find?_eq_head_of_all _ _ (by intro x hx; simp), hh]
    simp [ht]
  rw [h1]
  have hmain := foldl_inv (assignStep t)
    (fun st => (∃ mr, st.1 = (f, e.header) :: mr ∧ ∀ q ∈ mr, q.2 ≠ e.header) ∧
      e.header ∈ st.2)
    (by
      intro st p hst
      obtain ⟨⟨mr, hmr, hall⟩, hmem⟩ := hst
      unfold assignStep
      cases hb : pickBest p.2 st.2 with
      | none => exact ⟨⟨mr, hmr, hall⟩, hmem⟩
      | some b =>
        by_cases htb : t ≤ b.score
        · simp only [if_pos htb]
          have hbn : ¬ b.header ∈ st.2 := by simpa using List.find?_some hb
          refine ⟨⟨mr ++ [(p.1, b.header)], by rw [hmr]; rfl, ?_⟩,
            List.mem_cons_of_mem _ hmem⟩
          intro q hq
          rcases List.mem_append.1 hq with hq | hq
          · exact hall q hq
          · simp only [List.mem_singleton] at hq
            subst hq
            intro h0
            simp only at h0
            exact hbn (by rw [h0]; exact hmem)
        · simp only [if_neg htb]
          exact ⟨⟨mr, hmr, hall⟩, hmem⟩)
    rest ([(f, e.header)], [e.header]) ⟨⟨[], rfl, by simp⟩, by simp⟩
  obtain ⟨⟨mr, hmr, hall⟩, _⟩ := hmain
  exact ⟨mr, hmr, hall⟩

/-- Every field of the enumeration is present in the Scorer's output with
its own sorted score list (independently of its position). -/
theorem lookup_buildScores_mem (headers : List Str) (sniffL : List (Str × Flags))
    (learned : List (Str × List Str)) :
    ∀ (ord : List Str) (g : Str), g ∈ ord →
      lookupS g (buildScores headers sniffL learned ord) =
        some (sortDesc (rawScores headers sniffL g (mergedAliases learned g))) := by
  intro ord
  induction ord with
  | nil => intro g hg; simp at hg
  | cons a t ih =>
    intro g hg
    simp only [buildScores, List.map_cons]
    rw [lookupS]
    by_cases ha : a = g
    · rw [if_pos ha, ha]
    · rw [if_neg ha]
      rcases List.mem_cons.1 hg with rfl | hg2
      · exact absurd rfl ha
      · exact ih g hg2

/-- While nothing has been claimed, a field whose top-ranked entry is below
the threshold claims nothing: the Assigner skips a whole leading block of
such fields. -/
theorem assign_pre_skip (t : Int) :
    ∀ (L : ScoresT),
      (∀ p ∈ L, ∀ eg, p.2.head? = some eg → eg.score < t) →
      L.foldl (assignStep t) ([], []) = ([], []) := by
  intro L
  induction L with
  | nil => intro _; rfl
  | cons p L ih =>
    intro hall
    rw [List.foldl_cons]
    have hstep : assignStep t ([], []) p = ([], []) := by
      unfold assignStep pickBest
      cases hh : p.2.head? with
      | none => rw [find?_eq_head_of_all _ _ (by intro x hx; simp), hh]
      | some eg =>
        rw [find?_eq_head_of_all _ _ (by intro x hx; simp), hh]
        have hlt := hall p (List.mem_cons_self p L) eg hh
        simp [not_le.2 hlt]
    rw [hstep]
    exact ih (fun q hq => hall q (List.mem_cons_of_mem p hq))

/-! ### Properties of the sniffer's sample construction -/

theorem sampleOf_take (vs : List (Option Str)) : sampleOf vs = sampleOf (vs.take 50) := by
  unfold sampleOf
  rw [List.take_take]
  norm_num

theorem sampleOf_length_le (vs : List (Option Str)) : (sampleOf vs).length ≤ 50 := by
  unfold sampleOf
  calc ((vs.take 50).filterMap _).length ≤ (vs.take 50).length :=
        List.length_filterMap_le _ _
    _ ≤ 50 := List.length_take_le _ _

theorem sampleOf_sound (vs : List (Option Str)) :
    ∀ x ∈ sampleOf vs, x ≠ [] ∧ ∃ v, some v ∈ vs ∧ x = pyStrip v := by
  intro x hx
  unfold sampleOf at hx
  rw [List.mem_filterMap] at hx
  obtain ⟨a, ha, hax⟩ := hx
  cases a with
  | none => simp at hax
  | some v =>
    simp only at hax
    by_cases hz : pyStrip v = []
    · rw [if_pos hz] at hax; simp at hax
    · rw [if_neg hz] at hax
      injection hax with hax
      exact ⟨hax ▸ hz, v, (List.take_sublist 50 vs).mem ha, hax.symm⟩

/-! ### Characterization of the lat/lng flags (C5 core) -/

theorem sniff_type_latlng (vs : List (Option Str)) (f : Flags)
    (hs : sniff_type vs = some f) (hn : (sampleOf vs).length ≠ 0) :
    ∃ lc gc, countM (rangeMatch (-90) 90) (sampleOf vs) = some lc ∧
      countM (rangeMatch (-180) 180) (sampleOf vs) = some gc ∧
      (f.lat = true ↔ 3 * (sampleOf vs).length / 5 ≤ lc) ∧
      (f.lng = true ↔ 3 * (sampleOf vs).length / 5 ≤ gc) := by
  simp only [sniff_type] at hs
  rw [if_neg hn] at hs
  cases h1 : countM (rangeMatch (-90) 90) (sampleOf vs) with
  | none => rw [h1] at hs; simp at hs
  | some lc =>
    cases h2 : countM (rangeMatch (-180) 180) (sampleOf vs) with
    | none => rw [h1, h2] at hs; simp at hs
    | some gc =>
      rw [h1, h2] at hs
      simp only [Option.some_inj] at hs
      refine ⟨lc, gc, rfl, rfl, ?_, ?_⟩ <;> rw [← hs] <;> simp


/-! ### The claims -/

/-- C1: for every input (headers, rows, learned aliases, threshold) and
every enumeration of the merged alias table, whenever auto_map_columns
returns, the assigned headers in the mapping are pairwise distinct: no
header string is the value for two different canonical fields. -/
theorem c1_no_double_assignment (headers : List Str) (rows : List Row)
    (learned : List (Str × List Str)) (threshold : Int) (ord : List Str)
    (m : List (Str × Str)) (s : ScoresT)
    (h : auto_map_columns headers rows learned threshold ord = some (m, s)) :
    (m.map Prod.snd).Pairwise (fun a b => a ≠ b) := by
  obtain ⟨sniffL, _, _, hm⟩ := auto_map_eq h
  rw [hm]
  exact assign_values_nodup _ _

theorem c1_witness :
    (([(chars "city", chars "city")] : List (Str × Str)).map Prod.snd).Pairwise
      (fun a b => a ≠ b) :=
  c1_no_double_assignment [chars "city"] [] [] 75 [chars "city"]
    [(chars "city", chars "city")] [(chars "city", [⟨chars "city", 210⟩])]
    (by with_unfolding_all rfl)

/-- C2: for a fixed input (headers, rows, learned aliases, enumeration) and
thresholds t1 ≤ t2, the mapping returned with threshold t2 has at most as
many entries as the one returned with t1. -/
theorem c2_threshold_monotone (headers : List Str) (rows : List Row)
    (learned : List (Str × List Str)) (ord : List Str) (t1 t2 : Int)
    (m1 m2 : List (Str × Str)) (s1 s2 : ScoresT) (h12 : t1 ≤ t2)
    (h1 : auto_map_columns headers rows learned t1 ord = some (m1, s1))
    (h2 : auto_map_columns headers rows learned t2 ord = some (m2, s2)) :
    m2.length ≤ m1.length := by
  obtain ⟨nfo1, hs1, _, hm1⟩ := auto_map_eq h1
  obtain ⟨nfo2, hs2, _, hm2⟩ := auto_map_eq h2
  rw [hs1] at hs2
  injection hs2 with he
  rw [hm1, hm2, ← he]
  exact assign_mono _ h12

theorem c2_witness :
    ((50 : Int) ≤ 80) ∧
      ([(chars "city", chars "city")] : List (Str × Str)).length ≤
        ([(chars "city", chars "city")] : List (Str × Str)).length :=
  ⟨by norm_num,
    c2_threshold_monotone [chars "city"] [] [] [chars "city"] 50 80
      [(chars "city", chars "city")] [(chars "city", chars "city")]
      [(chars "city", [⟨chars "city", 210⟩])] [(chars "city", [⟨chars "city", 210⟩])]
      (by norm_num) (by with_unfolding_all rfl) (by with_unfolding_all rfl)⟩

/-- C3 (code bug): sniff_type is not total.  On the sample value "--5" the
isdigit guard passes (Python lstrip('-') strips every leading minus sign)
but float("--5") then raises ValueError, so sniff_type - and
auto_map_columns, which calls it on the column samples - propagates an
exception instead of treating the value as not matching the lat/lng type. -/
theorem c3_sniff_type_raises :
    sniff_type [some (chars "--5")] = none ∧
      auto_map_columns [chars "v"] [[(chars "v", some (chars "--5"))]] [] 75
        (ALIASES.map Prod.fst) = none := by
  exact ⟨by with_unfolding_all rfl, by with_unfolding_all rfl⟩

/-- C4 counterexample: with 50 blank values followed by "1", the code's
sample (50-cap applied before blank filtering) is empty and the sniffer
reports no flags, whereas the sample described by the spec (filter blanks,
then cap at 50) is ["1"]. -/
theorem c4_counterexample :
    sampleOf (List.replicate 50 (some (chars " ")) ++ [some (chars "1")]) ≠
      sampleSpec (List.replicate 50 (some (chars " ")) ++ [some (chars "1")]) ∧
    sampleOf (List.replicate 50 (some (chars " ")) ++ [some (chars "1")]) = [] ∧
    sampleSpec (List.replicate 50 (some (chars " ")) ++ [some (chars "1")]) = [chars "1"] ∧
    sniff_type (List.replicate 50 (some (chars " ")) ++ [some (chars "1")]) =
      some ⟨false, false, false, false, false⟩ := by
  refine ⟨of_decide_eq_false (by with_unfolding_all rfl), by with_unfolding_all rfl,
    by with_unfolding_all rfl, by with_unfolding_all rfl⟩

/-- C4 amended: the sniffer's sample consists of the non-null, non-blank
values (after stripping) among the FIRST 50 raw values: blank or null
values within the first 50 do consume slots, values beyond position 50 are
never examined, and every sample entry is the nonempty strip of some
supplied value; the sample never exceeds 50 entries. -/
theorem c4_sample_cap_before_filter (vs : List (Option Str)) :
    sampleOf vs = sampleOf (vs.take 50) ∧ (sampleOf vs).length ≤ 50 ∧
      ∀ x ∈ sampleOf vs, x ≠ [] ∧ ∃ v, some v ∈ vs ∧ x = pyStrip v :=
  ⟨sampleOf_take vs, sampleOf_length_le vs, sampleOf_sound vs⟩

theorem c4_witness :
    chars "1" ≠ [] ∧ ∃ v, some v ∈ [some (chars " 1 ")] ∧ chars "1" = pyStrip v :=
  (c4_sample_cap_before_filter [some (chars " 1 ")]).2.2 (chars "1") (by decide)

/-- C5 counterexample: on the sample ["x"] (n = 1, zero values parse as a
float) the code flags both lat and lng, because its cutoff int(n*0.6)
truncates to 0, while 60 percent of n is 3/5: a zero-match sample does get
flagged, contradicting the claimed 60-percent iff. -/
theorem c5_counterexample :
    sniff_type [some (chars "x")] = some ⟨false, false, false, true, true⟩ ∧
      countM (rangeMatch (-90) 90) (sampleOf [some (chars "x")]) = some 0 ∧
      ¬ ((3 : Rat) / 5 * 1 ≤ (0 : Rat)) :=
  ⟨by with_unfolding_all rfl, by with_unfolding_all rfl, by norm_num⟩

/-- C5 amended: for a successful sniff on a non-empty sample of size n, the
lat flag is set iff the number of values passing the guard and parsing into
[-90, 90] is at least ⌊0.6·n⌋ = 3*n/5 (integer division), and the lng flag
likewise for [-180, 180]; a sample with zero matching values is flagged
exactly when ⌊0.6·n⌋ = 0, that is when n = 1. -/
theorem c5_latlng_flag_iff (vs : List (Option Str)) (f : Flags)
    (hs : sniff_type vs = some f) (hn : (sampleOf vs).length ≠ 0) :
    ∃ lc gc, countM (rangeMatch (-90) 90) (sampleOf vs) = some lc ∧
      countM (rangeMatch (-180) 180) (sampleOf vs) = some gc ∧
      (f.lat = true ↔ 3 * (sampleOf vs).length / 5 ≤ lc) ∧
      (f.lng = true ↔ 3 * (sampleOf vs).length / 5 ≤ gc) :=
  sniff_type_latlng vs f hs hn

theorem c5_witness :
    ∃ lc gc, countM (rangeMatch (-90) 90)
        (sampleOf [some (chars "40.5"), some (chars "abc")]) = some lc ∧
      countM (rangeMatch (-180) 180)
        (sampleOf [some (chars "40.5"), some (chars "abc")]) = some gc ∧
      ((⟨false, false, false, true, true⟩ : Flags).lat = true ↔
        3 * (sampleOf [some (chars "40.5"), some (chars "abc")]).length / 5 ≤ lc) ∧
      ((⟨false, false, false, true, true⟩ : Flags).lng = true ↔
        3 * (sampleOf [some (chars "40.5"), some (chars "abc")]).length / 5 ≤ gc) :=
  c5_latlng_flag_iff [some (chars "40.5"), some (chars "abc")]
    ⟨false, false, false, true, true⟩ (by with_unfolding_all rfl) (by decide)

set_option maxRecDepth 4000 in
/-- C6 counterexample: ord2 is a legitimate enumeration of the merged key
set set(ALIASES) | set(learned0) - the source iterates that set union, and
Python leaves a set's iteration order implementation defined - yet the
engine's output under ord2 differs from its output under the
built-in-fields-first order the claim asserts: the processing order is not
pinned to built-in-first, and it changes which field claims a contested
header. -/
theorem c6_counterexample :
    validOrd ord2 learned0 ∧
      auto_map_columns [chars "name"] [] learned0 75 ord2 ≠
        auto_map_columns [chars "name"] [] learned0 75 (builtinFirst learned0) := by
  constructor
  · unfold validOrd
    exact ⟨by decide, by decide, by decide, by decide⟩
  · exact of_decide_eq_false (by with_unfolding_all rfl)

/-- C6 amended: the Assigner processes canonical fields in the iteration
order of the merged alias table, whatever enumeration the set union
produces; that order decides first claim on a contested header: the FIRST
field of the enumeration whose top-ranked entry meets the threshold - every
field before it, having a top entry below the threshold, claims nothing -
opens the mapping with that header, and no later field is assigned it. -/
theorem c6_first_qualifying_field_claims (headers : List Str) (rows : List Row)
    (learned : List (Str × List Str)) (t : Int) (pre : List Str) (f : Str)
    (rest : List Str) (m : List (Str × Str)) (s : ScoresT)
    (ranked : List ScoreEntry) (e : ScoreEntry)
    (h : auto_map_columns headers rows learned t (pre ++ f :: rest) = some (m, s))
    (hpre : ∀ g ∈ pre, ∀ rg eg, lookupS g s = some rg → rg.head? = some eg →
      eg.score < t)
    (hr : lookupS f s = some ranked) (he : ranked.head? = some e) (ht : t ≤ e.score) :
    m.head? = some (f, e.header) ∧ ∀ q ∈ m.tail, q.2 ≠ e.header := by
  obtain ⟨sniffL, _, hscores, hm⟩ := auto_map_eq h
  have hrank : ranked = sortDesc (rawScores headers sniffL f (mergedAliases learned f)) := by
    rw [hscores] at hr
    exact lookup_buildScores _ _ _ _ _ _ hr
  have hsplit : buildScores headers sniffL learned (pre ++ f :: rest) =
      buildScores headers sniffL learned pre ++
        (f, ranked) :: buildScores headers sniffL learned rest := by
    unfold buildScores
    rw [List.map_append, List.map_cons, hrank]
  have hpre2 : ∀ p ∈ buildScores headers sniffL learned pre, ∀ eg,
      p.2.head? = some eg → eg.score < t := by
    intro p hp eg hh
    unfold buildScores at hp
    rw [List.mem_map] at hp
    obtain ⟨g, hg, rfl⟩ := hp
    have hlook : lookupS g s =
        some (sortDesc (rawScores headers sniffL g (mergedAliases learned g))) := by
      rw [hscores]
      exact lookup_buildScores_mem headers sniffL learned _ g
        (List.mem_append.2 (Or.inl hg))
    exact hpre g hg _ eg hlook hh
  obtain ⟨mrest, hassign, hall⟩ := assign_first_field f ranked
    (buildScores headers sniffL learned rest) t e he ht
  have hassign2 : (((f, ranked) :: buildScores headers sniffL learned rest).foldl
      (assignStep t) ([], [])).1 = (f, e.header) :: mrest := hassign
  rw [hm, hsplit]
  unfold assign
  rw [List.foldl_append, assign_pre_skip t _ hpre2, hassign2]
  exact ⟨rfl, hall⟩

set_option maxRecDepth 4000 in
theorem c6_witness :
    ([(chars "category", chars "name")] : List (Str × Str)).head? =
        some (chars "category", chars "name") ∧
      ∀ q ∈ ([(chars "category", chars "name")] : List (Str × Str)).tail,
        q.2 ≠ chars "name" :=
  c6_first_qualifying_field_claims [chars "name"] [] learned0 75
    [chars "lat"] (chars "category") [chars "name"]
    [(chars "category", chars "name")]
    [(chars "lat", [⟨chars "name", 10⟩]),
      (chars "category", [⟨chars "name", 210⟩]),
      (chars "name", [⟨chars "name", 210⟩])]
    [⟨chars "name", 210⟩] ⟨chars "name", 210⟩
    (by with_unfolding_all rfl)
    (by
      intro g hg rg eg h1 h2
      have hgl : g = chars "lat" := by simpa using hg
      subst hgl
      rw [(by decide : lookupS (chars "lat")
        ([(chars "lat", [⟨chars "name", 10⟩]),
          (chars "category", [⟨chars "name", 210⟩]),
          (chars "name", [⟨chars "name", 210⟩])] : ScoresT) =
        some [⟨chars "name", 10⟩])] at h1
      injection h1 with h1
      subst h1
      injection h2 with h2
      subst h2
      decide)
    (by decide) (by decide) (by decide)

/-- C7: any header whose normalization equals the normalization of some
alias (built-in or learned) of a field receives a recorded score of at
least 100 for that field in the scores output. -/
theorem c7_exact_alias_score (headers : List Str) (rows : List Row)
    (learned : List (Str × List Str)) (threshold : Int) (ord : List Str)
    (m : List (Str × Str)) (s : ScoresT) (field : Str) (ranked : List ScoreEntry)
    (e : ScoreEntry)
    (h : auto_map_columns headers rows learned threshold ord = some (m, s))
    (hr : lookupS field s = some ranked) (he : e ∈ ranked)
    (hex : ∃ a ∈ mergedAliases learned field, norm a = norm e.header) :
    100 ≤ e.score := by
  obtain ⟨sniffL, _, hscores, _⟩ := auto_map_eq h
  rw [hscores] at hr
  have hrank := lookup_buildScores _ _ _ _ _ _ hr
  rw [hrank] at he
  have he2 : e ∈ rawScores headers sniffL field (mergedAliases learned field) :=
    (sortDesc_perm _).mem_iff.1 he
  rw [rawScores, List.mem_map] at he2
  obtain ⟨hh, _, rfl⟩ := he2
  exact scoreOne_ge_of_exact field (mergedAliases learned field) _ hh hex

theorem c7_witness : (100 : Int) ≤ (⟨chars "city", 210⟩ : ScoreEntry).score :=
  c7_exact_alias_score [chars "city"] [] [] 75 [chars "city"]
    [(chars "city", chars "city")] [(chars "city", [⟨chars "city", 210⟩])]
    (chars "city") [⟨chars "city", 210⟩] ⟨chars "city", 210⟩
    (by with_unfolding_all rfl) (by decide) (by decide) (by decide)

/-- C8: top_candidates returns exactly the first min(k, length) entries of
the requested field's full ranked list, converted to (header, score) pairs
and untouched by the Assigner, and the empty list when the field is absent
from the scores. -/
theorem c8_top_candidates_take (scores : ScoresT) (field : Str) (k : Nat) :
    (lookupS field scores = none → top_candidates scores field k = []) ∧
      ∀ ranked, lookupS field scores = some ranked →
        top_candidates scores field k =
          (ranked.map (fun e => (e.header, e.score))).take k ∧
        (top_candidates scores field k).length = min k ranked.length := by
  constructor
  · intro h
    unfold top_candidates
    rw [h]
    simp
  · intro ranked h
    unfold top_candidates
    rw [h]
    constructor
    · simp [List.map_take]
    · simp [List.length_take]

theorem c8_witness :
    top_candidates [(chars "city", [⟨chars "city", 210⟩, ⟨chars "town", 100⟩])]
        (chars "nope") 3 = [] ∧
      top_candidates [(chars "city", [⟨chars "city", 210⟩, ⟨chars "town", 100⟩])]
        (chars "city") 1 = [(chars "city", 210)] := by
  constructor
  · exact (c8_top_candidates_take
      [(chars "city", [⟨chars "city", 210⟩, ⟨chars "town", 100⟩])] (chars "nope") 3).1
      (by decide)
  · have h := ((c8_top_candidates_take
      [(chars "city", [⟨chars "city", 210⟩, ⟨chars "town", 100⟩])] (chars "city") 1).2
      [⟨chars "city", 210⟩, ⟨chars "town", 100⟩] (by decide)).1
    rw [h]
    decide

/-- C9: every field present in the scores output lists exactly one entry
per input header (its headers are a permutation of the input header list,
never pruned by the Assigner), in descending score order, with equal-score
entries kept in header input order (for each score value the entries equal
those of the unsorted per-header score list). -/
theorem c9_scores_total_sorted_stable (headers : List Str) (rows : List Row)
    (learned : List (Str × List Str)) (threshold : Int) (ord : List Str)
    (m : List (Str × Str)) (s : ScoresT) (sniffL : List (Str × Flags))
    (field : Str) (ranked : List ScoreEntry)
    (hsn : sniffTable headers rows = some sniffL)
    (h : auto_map_columns headers rows learned threshold ord = some (m, s))
    (hr : lookupS field s = some ranked) :
    (ranked.map ScoreEntry.header).Perm headers ∧
      ranked.Pairwise (fun a b => b.score ≤ a.score) ∧
      ∀ c : Int, ranked.filter (fun e => decide (e.score = c)) =
        (rawScores headers sniffL field (mergedAliases learned field)).filter
          (fun e => decide (e.score = c)) := by
  obtain ⟨sniffL2, hsn2, hscores, _⟩ := auto_map_eq h
  rw [hsn] at hsn2
  injection hsn2 with he
  subst he
  rw [hscores] at hr
  have hrank := lookup_buildScores _ _ _ _ _ _ hr
  subst hrank
  refine ⟨?_, sortDesc_sorted _, fun c => sortDesc_filter_score c _⟩
  have hperm := (sortDesc_perm
    (rawScores headers sniffL field (mergedAliases learned field))).map ScoreEntry.header
  have hmap : (rawScores headers sniffL field (mergedAliases learned field)).map
      ScoreEntry.header = headers := by
    unfold rawScores
    rw [List.map_map]
    exact List.map_id _
  rw [hmap] at hperm
  exact hperm

theorem c9_witness :
    (([⟨chars "city", 210⟩] : List ScoreEntry).map ScoreEntry.header).Perm [chars "city"] ∧
      ([⟨chars "city", 210⟩] : List ScoreEntry).Pairwise (fun a b => b.score ≤ a.score) ∧
      ∀ c : Int, ([⟨chars "city", 210⟩] : List ScoreEntry).filter
          (fun e => decide (e.score = c)) =
        (rawScores [chars "city"] [(chars "city", noFlags)] (chars "city")
          (mergedAliases [] (chars "city"))).filter (fun e => decide (e.score = c)) :=
  c9_scores_total_sorted_stable [chars "city"] [] [] 75 [chars "city"]
    [(chars "city", chars "city")] [(chars "city", [⟨chars "city", 210⟩])]
    [(chars "city", noFlags)] (chars "city") [⟨chars "city", 210⟩]
    (by decide) (by with_unfolding_all rfl) (by decide)

/-- C10: fuzzy_score always lies in [0, 1]: the DP edit distance between
the normalized strings never exceeds the length of the longer normalized
string, so 1 - dist/max_len has a hard floor of 0 (and a ceiling of 1). -/
theorem c10_fuzzy_score_in_unit (h al : Str) :
    edit_distance h al ≤ max (norm h).length (norm al).length ∧
      0 ≤ fuzzy_score h al ∧ fuzzy_score h al ≤ 1 :=
  ⟨edit_distance_le_max h al, (fuzzy_score_mem_Icc h al).1,
    (fuzzy_score_mem_Icc h al).2⟩

end automap
